import Mathlib

/-!
Verification of the uncollapsed Gibbs sampler for LDA implemented in
`4_Gibbs_Sampling_Tutorial.ipynb` (class `Gibbs`).

Embedding conventions:
* Documents are lists of vocabulary indices (`Nat`); the corpus is a
  `List (List Nat)`.  The notebook indexes `term_topic_count` by token
  string through the bijective Vocabulary map, so tokens are modelled by
  their indices.
* The pandas count matrices (`doc_topic_counts`, `term_topic_count`) are
  total functions `Nat → Nat → Int`; the live labels are documents
  `[0, D)`, tokens `self.tokens`, and topics `[0, K)`, and every sum
  that the code takes over a matrix axis is taken over exactly those
  labels.
* Python floats are modelled by `ℚ` (all quantities the sampler computes
  are ratios of integers shifted by the rational priors `alpha`, `beta`);
  the transcendental `np.log` / `np.exp` of the perplexity diagnostic are
  modelled by `Real.log` / `Real.exp`.
* `np.random` is modelled by an explicit stream `g : Nat → Nat` together
  with a cursor `c : Nat` that advances by one per draw:
  `np.random.randint(0, K)` and the index returned by
  `np.where(np.random.multinomial(1, weights) == 1)[0][0]` are both
  oracle draws `g c % K` (a value in `[0, K)`, which is all the sampler's
  state evolution depends on).  Seeding `np.random` corresponds to
  choosing the stream via `seedStream`.
* The perplexity trace `self.perplexity_scores` stores, for each
  invocation, the snapshot of the two count matrices at that moment; the
  real-valued trace the notebook stores is recovered by mapping `pvalue`
  over it (`valueTrace`).
-/

/-- `tokens = list(set(chain(*text)))`: the distinct tokens of the corpus.
Python's set order is unspecified; `dedup` fixes one concrete order, which
is all the class uses (a stable row order for `term_topic_count`). -/
def vocabOf (text : List (List Nat)) : List Nat :=
  text.flatten.dedup

/-- Total word-occurrence count of the corpus (`text.apply(len).sum()`). -/
def totalOcc (text : List (List Nat)) : Nat :=
  (text.map List.length).sum

/-- Entry `[w, j]` of the tally that builds `self.term_topic_count`:
the number of positions, across all documents, holding word `w` with
current topic assignment `j` (the double loop over
`zip(self.doc_topic.ix[doc_ind], self.text.ix[doc_ind])`). -/
def tallyTT (text z : List (List Nat)) (w j : Nat) : Int :=
  ∑ d ∈ Finset.range text.length,
    (((text.getD d []).zip (z.getD d [])).count (w, j) : Int)

/-- The per-document random initial assignment
`text.apply(lambda x: np.random.randint(0, K, size=(len(x),)))`,
with the rng stream `g` consumed one value per word occurrence starting
at cursor `c`.  Returns the assignment rows and the advanced cursor. -/
def initZAux (g : Nat → Nat) (K : Nat) : List (List Nat) → Nat → List (List Nat) × Nat
  | [], c => ([], c)
  | doc :: rest, c =>
    let row := (List.range doc.length).map fun i => g (c + i) % K
    let p := initZAux g K rest (c + doc.length)
    (row :: p.1, p.2)

/-- State of a `Gibbs` sampler instance: the fields set by `__init__` and
mutated by `iterate` / `perplexity`. -/
structure Gibbs where
  text : List (List Nat)
  tokens : List Nat
  V : Nat
  K : Nat
  alpha : ℚ
  beta : ℚ
  doc_topic : List (List Nat)
  doc_topic_counts : Nat → Nat → Int
  term_topic_count : Nat → Nat → Int
  perplexity_scores : List ((Nat → Nat → Int) × (Nat → Nat → Int))

instance : Inhabited Gibbs :=
  ⟨⟨[], [], 0, 0, 0, 0, [], fun _ _ => 0, fun _ _ => 0, []⟩⟩

/-- `Gibbs.__init__(text, K)`.  The notebook performs no explicit
validation; the two fatal construction paths are
(a) `np.random.randint(0, K, ...)` raising `ValueError: low >= high`
when `K <= 0` (hit as soon as there is at least one document), and
(b) `self.beta = 200.0/self.V` raising `ZeroDivisionError` when the
vocabulary is empty.  On success it draws one topic per occurrence,
tallies `doc_topic_counts` (the `Counter`/`fillna(0)`/fill-missing-column
construction: entry `[d, j]` is the number of occurrences of topic `j`
in document `d`'s assignment row) and `term_topic_count`, and sets the
priors `alpha = 50/K`, `beta = 200/V` and the empty perplexity trace. -/
def Gibbs.init (text : List (List Nat)) (K : Int) (g : Nat → Nat) (c : Nat) :
    Except String (Gibbs × Nat) :=
  if K ≤ 0 ∧ text ≠ [] then .error "low >= high"
  else if (vocabOf text).length = 0 then .error "float division by zero"
  else .ok
    ({ text := text
       tokens := vocabOf text
       V := (vocabOf text).length
       K := K.toNat
       alpha := 50 / (K.toNat : ℚ)
       beta := 200 / ((vocabOf text).length : ℚ)
       doc_topic := (initZAux g K.toNat text c).1
       doc_topic_counts := fun d j => (((initZAux g K.toNat text c).1.getD d []).count j : Int)
       term_topic_count := fun w j => tallyTT text (initZAux g K.toNat text c).1 w j
       perplexity_scores := [] }, (initZAux g K.toNat text c).2)

/-- Point update of a count matrix: `M.loc[a, b] += c`. -/
def bump (f : Nat → Nat → Int) (a b : Nat) (c : Int) : Nat → Nat → Int :=
  fun x y => if x = a ∧ y = b then f x y + c else f x y

/-- The topic currently assigned to occurrence `(d, i)`:
`topics[word_ind]` for `topics = self.doc_topic.ix[doc_ind]`. -/
def koldAt (s : Gibbs) (d i : Nat) : Nat :=
  (s.doc_topic.getD d []).getD i 0

/-- The word at occurrence `(d, i)`: `word` in
`for word_ind, word in enumerate(doc)`. -/
def wordAt (s : Gibbs) (d i : Nat) : Nat :=
  (s.text.getD d []).getD i 0

/-- The "remove" half of a single-occurrence resample:
`self.doc_topic_counts.loc[doc_ind, topics[word_ind]] -= 1` and
`self.term_topic_count.loc[word, topics[word_ind]] -= 1`. -/
def removeOcc (s : Gibbs) (d i : Nat) : Gibbs :=
  { s with
    doc_topic_counts := bump s.doc_topic_counts d (koldAt s d i) (-1)
    term_topic_count := bump s.term_topic_count (wordAt s d i) (koldAt s d i) (-1) }

/-- `self.doc_topic_counts.sum()[j]`: column sum of the document-topic
count matrix (summed over the `D` document rows). -/
def colSumDTC (s : Gibbs) (j : Nat) : Int :=
  ∑ d ∈ Finset.range s.text.length, s.doc_topic_counts d j

/-- `self.doc_topic_counts.sum(1).ix[d]`: row sum of the document-topic
count matrix (summed over the `K` topic columns). -/
def rowSumDTC (s : Gibbs) (d : Nat) : Int :=
  ∑ j ∈ Finset.range s.K, s.doc_topic_counts d j

/-- Column sum of the term-topic count matrix over its `V` token rows
(`sum_over_w' term_topic_count[w', j]`). -/
def colSumTTC (s : Gibbs) (j : Nat) : Int :=
  ∑ w ∈ s.tokens.toFinset, s.term_topic_count w j

/-- The unnormalized conditional weight vector the code computes:
`weights = word_given_topic * topic_given_doc` with
`word_given_topic = (self.term_topic_count.ix[word]+self.beta)
                    / (self.doc_topic_counts.sum()+self.V*self.beta)` and
`topic_given_doc = (self.doc_topic_counts.ix[doc_ind]+self.alpha)
                   / (self.doc_topic_counts.sum(1).ix[doc_ind]+self.K*self.alpha)`.
Note the first denominator is a column sum of `doc_topic_counts`. -/
def weightsAt (s : Gibbs) (d w : Nat) : List ℚ :=
  (List.range s.K).map fun j =>
    (((s.term_topic_count w j : ℚ) + s.beta) /
        ((colSumDTC s j : ℚ) + (s.V : ℚ) * s.beta)) *
    (((s.doc_topic_counts d j : ℚ) + s.alpha) /
        ((rowSumDTC s d : ℚ) + (s.K : ℚ) * s.alpha))

/-- The weight vector as the specification states it: the first factor's
denominator is `sum_over_w' term_topic_count[w', j] + V*beta` (a column
sum of the term-topic matrix), evaluated on counts that exclude the
occurrence being resampled. -/
def specWeightList (s : Gibbs) (d w : Nat) : List ℚ :=
  (List.range s.K).map fun j =>
    (((s.term_topic_count w j : ℚ) + s.beta) /
        ((colSumTTC s j : ℚ) + (s.V : ℚ) * s.beta)) *
    (((s.doc_topic_counts d j : ℚ) + s.alpha) /
        ((rowSumDTC s d : ℚ) + (s.K : ℚ) * s.alpha))

/-- The "add back" half of a resample: `topics[word_ind] = new_topic`
(an in-place update of `self.doc_topic.ix[doc_ind]`, later re-assigned
verbatim), then `self.doc_topic_counts.loc[doc_ind, new_topic] += 1` and
`self.term_topic_count.loc[word, new_topic] += 1`. -/
def addBack (s : Gibbs) (d i knew : Nat) : Gibbs :=
  { s with
    doc_topic := s.doc_topic.set d ((s.doc_topic.getD d []).set i knew)
    doc_topic_counts := bump s.doc_topic_counts d knew 1
    term_topic_count := bump s.term_topic_count (wordAt s d i) knew 1 }

/-- The record of one resample: the occurrence visited, the word and old
topic read in step 1, the unnormalized weight vector computed in step 3,
and the topic drawn in step 5. -/
structure Visit where
  d : Nat
  i : Nat
  w : Nat
  kold : Nat
  weights : List ℚ
  knew : Nat

/-- One full remove → compute → draw → add-back resample of occurrence
`(d, i)` (the body of the inner loop of `Gibbs.iterate`).  The draw from
`np.random.multinomial(1, weights/weights.sum())` is modelled by the
oracle `g c % K`, one stream value consumed per draw. -/
def resample_one (s : Gibbs) (g : Nat → Nat) (c d i : Nat) : Gibbs × Nat × Visit :=
  let w := wordAt s d i
  let kold := koldAt s d i
  let s1 := removeOcc s d i
  let wts := weightsAt s1 d w
  let knew := g c % s.K
  (addBack s1 d i knew, c + 1, ⟨d, i, w, kold, wts, knew⟩)

/-- `Gibbs.perplexity` (state effect): appends the current count-matrix
snapshot to `self.perplexity_scores`; the scalar the notebook appends is
`pvalue` of this snapshot. -/
def Gibbs.perplexity (s : Gibbs) : Gibbs :=
  { s with perplexity_scores :=
      s.perplexity_scores ++ [(s.doc_topic_counts, s.term_topic_count)] }

/-- `dt = (self.doc_topic_counts+self.alpha).apply(lambda x: x/x.sum(), 1)`:
row-normalized smoothed document-topic distribution. -/
def dtFun (s : Gibbs) (dtc : Nat → Nat → Int) (d k : Nat) : ℚ :=
  ((dtc d k : ℚ) + s.alpha) / ∑ j ∈ Finset.range s.K, ((dtc d j : ℚ) + s.alpha)

/-- `tt = (self.term_topic_count+self.beta) /
      (self.term_topic_count+self.beta).sum()`:
column-normalized smoothed topic-term distribution. -/
def ttFun (s : Gibbs) (ttc : Nat → Nat → Int) (w k : Nat) : ℚ :=
  ((ttc w k : ℚ) + s.beta) / ∑ x ∈ s.tokens.toFinset, ((ttc x k : ℚ) + s.beta)

/-- `(tt.ix[each] * dt.ix[index]).sum()`: the smoothed probability of one
word occurrence under the current mixture. -/
def occProb (s : Gibbs) (snap : (Nat → Nat → Int) × (Nat → Nat → Int)) (d w : Nat) : ℚ :=
  ∑ k ∈ Finset.range s.K, ttFun s snap.2 w k * dtFun s snap.1 d k

/-- The scalar `Gibbs.perplexity` appends:
`np.exp(-np.sum(perplexity) / self.text.apply(len).sum())`, where the
summed quantity accumulates `np.log((tt.ix[each]*dt.ix[index]).sum())`
over every occurrence of every document. -/
noncomputable def pvalue (s : Gibbs) (snap : (Nat → Nat → Int) × (Nat → Nat → Int)) : ℝ :=
  Real.exp (-(∑ d ∈ Finset.range s.text.length,
      ((s.text.getD d []).map fun w => Real.log ((occProb s snap d w : ℚ) : ℝ)).sum) /
    (totalOcc s.text : ℝ))

/-- The real-valued perplexity trace of a state: the scalar the notebook
stored for each recorded snapshot, in order of invocation. -/
noncomputable def valueTrace (s : Gibbs) : List ℝ :=
  s.perplexity_scores.map (pvalue s)

/-- `dt[d,k] = (doc_topic_counts[d,k] + alpha) / sum_k(doc_topic_counts[d,k] + alpha)`
as the specification words it. -/
def dt_spec (s : Gibbs) (dtc : Nat → Nat → Int) (d k : Nat) : ℚ :=
  ((dtc d k : ℚ) + s.alpha) / ∑ j ∈ Finset.range s.K, ((dtc d j : ℚ) + s.alpha)

/-- `tt[w,k] = (term_topic_count[w,k] + beta) / sum_w(term_topic_count[w,k] + beta)`
as the specification words it. -/
def tt_spec (s : Gibbs) (ttc : Nat → Nat → Int) (w k : Nat) : ℚ :=
  ((ttc w k : ℚ) + s.beta) / ∑ x ∈ s.tokens.toFinset, ((ttc x k : ℚ) + s.beta)

/-- `exp(-L/N)` with `L = sum over documents d and occurrences w of
log(sum over topics k of tt[w,k]*dt[d,k])` and `N` the corpus occurrence
count: the perplexity scalar as the specification words it. -/
noncomputable def specPerpValue (s : Gibbs) (dtc ttc : Nat → Nat → Int) : ℝ :=
  Real.exp (-(∑ d ∈ Finset.range s.text.length,
      ((s.text.getD d []).map fun w =>
        Real.log ((∑ k ∈ Finset.range s.K, tt_spec s ttc w k * dt_spec s dtc d k : ℚ) : ℝ)).sum) /
    (totalOcc s.text : ℝ))

/-- The inner loop `for word_ind, word in enumerate(doc)` of one document
`d`, over an explicit list of positions, threading the rng cursor and
collecting one `Visit` per `resample_one`. -/
def resampleList (g : Nat → Nat) (d : Nat) : List Nat → Gibbs → Nat → Gibbs × Nat × List Visit
  | [], s, c => (s, c, [])
  | i :: rest, s, c =>
    let r := resample_one s g c d i
    let r2 := resampleList g d rest r.1 r.2.1
    (r2.1, r2.2.1, r.2.2 :: r2.2.2)

/-- The middle loop `for doc_ind, doc in enumerate(self.text)` starting
at document index `d`. -/
def sweepFrom (g : Nat → Nat) : List (List Nat) → Nat → Gibbs → Nat → Gibbs × Nat × List Visit
  | [], _, s, c => (s, c, [])
  | doc :: rest, d, s, c =>
    let r := resampleList g d (List.range doc.length) s c
    let r2 := sweepFrom g rest (d + 1) r.1 r.2.1
    (r2.1, r2.2.1, r.2.2 ++ r2.2.2)

/-- The outer loop `for step in range(n)` of `Gibbs.iterate`: at every
step with `step % 25 == 0` the perplexity evaluator is invoked first,
then one full sweep over every occurrence is performed. -/
def iterateAux (g : Nat → Nat) : List Nat → Gibbs → Nat → Gibbs × Nat × List Visit
  | [], s, c => (s, c, [])
  | step :: rest, s, c =>
    let s0 := if step % 25 = 0 then s.perplexity else s
    let r := sweepFrom g s0.text 0 s0 c
    let r2 := iterateAux g rest r.1 r.2.1
    (r2.1, r2.2.1, r.2.2 ++ r2.2.2)

/-- `Gibbs.iterate(n)`: `n` systematic sweeps with periodic perplexity
evaluation, returning the final state, the advanced rng cursor, and the
chronological list of resample visits. -/
def Gibbs.iterate (s : Gibbs) (g : Nat → Nat) (c n : Nat) : Gibbs × Nat × List Visit :=
  iterateAux g (List.range n) s c

/-- The canonical visitation order of one sweep: documents in order
starting at index `d`, positions in order within each document. -/
def visitOrder : List (List Nat) → Nat → List (Nat × Nat)
  | [], _ => []
  | doc :: rest, d => ((List.range doc.length).map fun i => (d, i)) ++ visitOrder rest (d + 1)

/-- The descending-count ordering on tokens used by
`self.term_topic_count.sort(topic, ascending=False)`. -/
def countGE (s : Gibbs) (topic : Nat) (a b : Nat) : Prop :=
  s.term_topic_count b topic ≤ s.term_topic_count a topic

instance (s : Gibbs) (topic : Nat) : DecidableRel (countGE s topic) := fun _ _ =>
  inferInstanceAs (Decidable (_ ≤ _))

instance (s : Gibbs) (topic : Nat) : IsTotal Nat (countGE s topic) :=
  ⟨fun _ _ => le_total _ _⟩

instance (s : Gibbs) (topic : Nat) : IsTrans Nat (countGE s topic) :=
  ⟨fun _ _ _ h1 h2 => le_trans h2 h1⟩

/-- The per-topic body of `Gibbs.top_n_words`:
`self.term_topic_count.sort(topic, ascending=False)[topic].head(n)`,
whose index is the first `n` tokens after sorting the vocabulary by
descending count in column `topic` (ties in an implementation-defined
order; insertion sort fixes one concrete such order). -/
def topWords (s : Gibbs) (topic n : Nat) : List Nat :=
  (List.insertionSort (countGE s topic) s.tokens).take n

/-- `Gibbs.top_n_words(n)`: for every topic in `range(K)` in order, the
top-`n` token list for that topic (the notebook prints each list).  The
method only reads the count state; the returned state is untouched. -/
def Gibbs.top_n_words (s : Gibbs) (n : Nat) : List (Nat × List Nat) × Gibbs :=
  (((List.range s.K).map fun topic => (topic, topWords s topic n)), s)

/-- A deterministic rng stream derived from a seed, modelling a seeded
`np.random` generator (the concrete mixing function is irrelevant: all
that matters is that the stream is a function of the seed alone). -/
def seedStream (seed : Nat) : Nat → Nat :=
  fun n => (1103515245 * (seed + n) + 12345) % 2147483648

/-- A complete seeded run: construct the sampler with the stream of
`seed`, run `n` sweeps, and return the full sequence of topic draws
(initialization draws, then every resample draw, in order) together with
the perplexity trace. -/
noncomputable def runGibbs (seed : Nat) (text : List (List Nat)) (K : Int) (n : Nat) :
    Except String (List Nat × List ℝ) :=
  match Gibbs.init text K (seedStream seed) 0 with
  | .error e => .error e
  | .ok (s, c) =>
    .ok (s.doc_topic.flatten ++ ((s.iterate (seedStream seed) c n).2.2.map Visit.knew),
         valueTrace (s.iterate (seedStream seed) c n).1)

/-- Configuration facts established by `__init__` and never mutated. -/
def cfgOk (s : Gibbs) : Prop :=
  s.tokens = vocabOf s.text ∧ s.V = s.tokens.length ∧ 0 < s.K ∧ 0 < s.V ∧
    s.alpha = 50 / (s.K : ℚ) ∧ s.beta = 200 / (s.V : ℚ)

/-- Shape facts about the assignment store: one row per document, one
entry per occurrence, every assigned topic in `[0, K)`. -/
def zOk (s : Gibbs) : Prop :=
  s.doc_topic.length = s.text.length ∧
    (∀ d, (s.doc_topic.getD d []).length = (s.text.getD d []).length) ∧
    (∀ d i, i < (s.doc_topic.getD d []).length → (s.doc_topic.getD d []).getD i 0 < s.K)

/-- The two count-sum invariants: every document row of
`doc_topic_counts` sums to the document's length, and each topic column
of `doc_topic_counts` sums to the matching column of
`term_topic_count`. -/
def sumsOk (s : Gibbs) : Prop :=
  (∀ d, d < s.text.length → rowSumDTC s d = ((s.text.getD d []).length : Int)) ∧
    (∀ j, colSumDTC s j = colSumTTC s j)

/-- The sampler's inductive invariant. -/
def SamplerInv (s : Gibbs) : Prop :=
  cfgOk s ∧ zOk s ∧ sumsOk s

/-- States of the sampler at rest (no resample mid-flight): the state
produced by a successful `__init__`, or any such state after one more
completed `resample_one` of an in-range occurrence or one more
`perplexity` invocation. -/
inductive Reachable : Gibbs → Prop where
  | init (text : List (List Nat)) (K : Int) (g : Nat → Nat) (c c' : Nat) (s : Gibbs)
      (h : Gibbs.init text K g c = .ok (s, c')) : Reachable s
  | step (s : Gibbs) (g : Nat → Nat) (c d i : Nat) (hs : Reachable s)
      (hd : d < s.text.length) (hi : i < (s.text.getD d []).length) :
      Reachable (resample_one s g c d i).1
  | perp (s : Gibbs) (hs : Reachable s) : Reachable s.perplexity

/-- Sum of all entries of `doc_topic_counts` over its live labels
(documents `[0, D)`, topics `[0, K)`). -/
def totalDTC (s : Gibbs) : Int :=
  ∑ d ∈ Finset.range s.text.length, ∑ j ∈ Finset.range s.K, s.doc_topic_counts d j

/-- Sum of all entries of `term_topic_count` over its live labels
(the `V` vocabulary rows, topics `[0, K)`). -/
def totalTTC (s : Gibbs) : Int :=
  ∑ w ∈ s.tokens.toFinset, ∑ j ∈ Finset.range s.K, s.term_topic_count w j

/-- Concrete corpus used to instantiate the reachability hypotheses of
the invariant theorems. -/
def tEx : List (List Nat) := [[0, 1], [1, 2]]

/-- Concrete rng stream used for the same purpose. -/
def gEx : Nat → Nat := fun n => n

/-- The sampler built from `tEx` with `K = 2`. -/
def sEx : Gibbs :=
  match Gibbs.init tEx 2 gEx 0 with
  | .ok p => p.1
  | .error _ => default

/-- The rng cursor after constructing `sEx`. -/
def cEx : Nat :=
  match Gibbs.init tEx 2 gEx 0 with
  | .ok p => p.2
  | .error _ => 0

/-! ### Projection lemmas: which fields each operation leaves untouched -/

@[simp] theorem removeOcc_text (s : Gibbs) (d i : Nat) : (removeOcc s d i).text = s.text := rfl

@[simp] theorem removeOcc_tokens (s : Gibbs) (d i : Nat) : (removeOcc s d i).tokens = s.tokens := rfl

@[simp] theorem removeOcc_V (s : Gibbs) (d i : Nat) : (removeOcc s d i).V = s.V := rfl

@[simp] theorem removeOcc_K (s : Gibbs) (d i : Nat) : (removeOcc s d i).K = s.K := rfl

@[simp] theorem removeOcc_alpha (s : Gibbs) (d i : Nat) : (removeOcc s d i).alpha = s.alpha := rfl

@[simp] theorem removeOcc_beta (s : Gibbs) (d i : Nat) : (removeOcc s d i).beta = s.beta := rfl

@[simp] theorem removeOcc_doc_topic (s : Gibbs) (d i : Nat) :
    (removeOcc s d i).doc_topic = s.doc_topic := rfl

theorem removeOcc_dtc (s : Gibbs) (d i : Nat) :
    (removeOcc s d i).doc_topic_counts = bump s.doc_topic_counts d (koldAt s d i) (-1) := rfl

theorem removeOcc_ttc (s : Gibbs) (d i : Nat) :
    (removeOcc s d i).term_topic_count
      = bump s.term_topic_count (wordAt s d i) (koldAt s d i) (-1) := rfl

@[simp] theorem addBack_text (s : Gibbs) (d i k : Nat) : (addBack s d i k).text = s.text := rfl

@[simp] theorem addBack_tokens (s : Gibbs) (d i k : Nat) : (addBack s d i k).tokens = s.tokens := rfl

@[simp] theorem addBack_V (s : Gibbs) (d i k : Nat) : (addBack s d i k).V = s.V := rfl

@[simp] theorem addBack_K (s : Gibbs) (d i k : Nat) : (addBack s d i k).K = s.K := rfl

@[simp] theorem addBack_alpha (s : Gibbs) (d i k : Nat) : (addBack s d i k).alpha = s.alpha := rfl

@[simp] theorem addBack_beta (s : Gibbs) (d i k : Nat) : (addBack s d i k).beta = s.beta := rfl

theorem addBack_doc_topic (s : Gibbs) (d i k : Nat) :
    (addBack s d i k).doc_topic = s.doc_topic.set d ((s.doc_topic.getD d []).set i k) := rfl

theorem addBack_dtc (s : Gibbs) (d i k : Nat) :
    (addBack s d i k).doc_topic_counts = bump s.doc_topic_counts d k 1 := rfl

theorem addBack_ttc (s : Gibbs) (d i k : Nat) :
    (addBack s d i k).term_topic_count = bump s.term_topic_count (wordAt s d i) k 1 := rfl

theorem resample_one_fst (s : Gibbs) (g : Nat → Nat) (c d i : Nat) :
    (resample_one s g c d i).1 = addBack (removeOcc s d i) d i (g c % s.K) := rfl

@[simp] theorem resample_one_text (s : Gibbs) (g : Nat → Nat) (c d i : Nat) :
    (resample_one s g c d i).1.text = s.text := rfl

@[simp] theorem perplexity_text (s : Gibbs) : (Gibbs.perplexity s).text = s.text := rfl

@[simp] theorem perplexity_K (s : Gibbs) : (Gibbs.perplexity s).K = s.K := rfl

@[simp] theorem perplexity_doc_topic (s : Gibbs) :
    (Gibbs.perplexity s).doc_topic = s.doc_topic := rfl

@[simp] theorem perplexity_dtc (s : Gibbs) :
    (Gibbs.perplexity s).doc_topic_counts = s.doc_topic_counts := rfl

@[simp] theorem perplexity_ttc (s : Gibbs) :
    (Gibbs.perplexity s).term_topic_count = s.term_topic_count := rfl

/-! ### List helpers -/

theorem getD_set_self {α : Type} (l : List α) (n : Nat) (v x : α) (h : n < l.length) :
    (l.set n v).getD n x = v := by
  induction l generalizing n with
  | nil => simp at h
  | cons a t ih =>
    cases n with
    | zero => rfl
    | succ m =>
      have hm : m < t.length := by simpa using h
      simpa using ih m hm

theorem getD_set_ne {α : Type} (l : List α) (n m : Nat) (v x : α) (h : m ≠ n) :
    (l.set n v).getD m x = l.getD m x := by
  induction l generalizing n m with
  | nil => simp [List.set]
  | cons a t ih =>
    cases n with
    | zero =>
      cases m with
      | zero => exact absurd rfl h
      | succ m' => simp
    | succ n' =>
      cases m with
      | zero => simp
      | succ m' =>
        have : m' ≠ n' := fun he => h (by rw [he])
        simpa using ih n' m' this

theorem getD_mem_of_lt {α : Type} (l : List α) (n : Nat) (x : α) (h : n < l.length) :
    l.getD n x ∈ l := by
  rw [List.getD_eq_getElem l x h]
  exact List.getElem_mem h

theorem mem_vocabOf {text : List (List Nat)} {doc : List Nat} {w : Nat}
    (hdoc : doc ∈ text) (hw : w ∈ doc) : w ∈ vocabOf text := by
  unfold vocabOf
  rw [List.mem_dedup]
  exact List.mem_flatten.2 ⟨doc, hdoc, hw⟩

/-! ### Sum helpers for point updates of a count matrix -/

theorem sum_if_add (T : Finset Nat) (f : Nat → Int) (a : Nat) (c : Int) :
    (∑ x ∈ T, if x = a then f x + c else f x) = (∑ x ∈ T, f x) + if a ∈ T then c else 0 := by
  have h : ∀ x ∈ T, (if x = a then f x + c else f x) = f x + (if x = a then c else 0) := by
    intro x _
    by_cases hx : x = a <;> simp [hx]
  rw [Finset.sum_congr rfl h, Finset.sum_add_distrib, Finset.sum_ite_eq' T a fun _ => c]

theorem sum_bump_snd (f : Nat → Nat → Int) (a b : Nat) (c : Int) (T : Finset Nat) (x : Nat) :
    (∑ y ∈ T, bump f a b c x y) = (∑ y ∈ T, f x y) + if x = a ∧ b ∈ T then c else 0 := by
  by_cases hx : x = a
  · subst hx
    have h : ∀ y ∈ T, bump f x b c x y = if y = b then f x y + c else f x y := by
      intro y _
      simp [bump]
    rw [Finset.sum_congr rfl h, sum_if_add]
    simp
  · have h : ∀ y ∈ T, bump f a b c x y = f x y := by
      intro y _
      simp [bump, hx]
    rw [Finset.sum_congr rfl h]
    simp [hx]

theorem sum_bump_fst (f : Nat → Nat → Int) (a b : Nat) (c : Int) (T : Finset Nat) (y : Nat) :
    (∑ x ∈ T, bump f a b c x y) = (∑ x ∈ T, f x y) + if y = b ∧ a ∈ T then c else 0 := by
  by_cases hy : y = b
  · subst hy
    have h : ∀ x ∈ T, bump f a y c x y = if x = a then f x y + c else f x y := by
      intro x _
      simp [bump]
    rw [Finset.sum_congr rfl h, sum_if_add]
    simp
  · have h : ∀ x ∈ T, bump f a b c x y = f x y := by
      intro x _
      simp [bump, hy]
    rw [Finset.sum_congr rfl h]
    simp [hy]

/-! ### Counting lemmas used to establish the invariant at `__init__` -/

theorem sum_count_range (K : Nat) (zs : List Nat) (h : ∀ x ∈ zs, x < K) :
    (∑ j ∈ Finset.range K, ((zs.count j : Nat) : Int)) = (zs.length : Int) := by
  induction zs with
  | nil => simp
  | cons a t ih =>
    have ha : a < K := h a (by simp)
    have ht : ∀ x ∈ t, x < K := fun x hx => h x (by simp [hx])
    have hc : ∀ j ∈ Finset.range K,
        (((a :: t).count j : Nat) : Int) = ((t.count j : Nat) : Int) + if j = a then 1 else 0 := by
      intro j _
      by_cases hj : j = a
      · subst hj
        rw [List.count_cons]
        push_cast
        simp
      · have hne : a ≠ j := fun he => hj he.symm
        simp [List.count_cons, hne, hj]
    rw [Finset.sum_congr rfl hc, Finset.sum_add_distrib,
      Finset.sum_ite_eq' (Finset.range K) a fun _ => (1 : Int), ih ht,
      if_pos (Finset.mem_range.2 ha)]
    rw [List.length_cons]
    push_cast
    ring

theorem sum_count_zip (T : Finset Nat) (j : Nat) :
    ∀ (ws zs : List Nat), ws.length = zs.length → (∀ w ∈ ws, w ∈ T) →
      (∑ w ∈ T, (((ws.zip zs).count (w, j) : Nat) : Int)) = ((zs.count j : Nat) : Int) := by
  intro ws
  induction ws with
  | nil =>
    intro zs hlen _
    have hz : zs = [] := by
      have h0 : zs.length = 0 := hlen.symm
      simpa [List.length_eq_zero] using h0
    subst hz
    simp
  | cons a ws ih =>
    intro zs hlen hmem
    cases zs with
    | nil => simp at hlen
    | cons b zs' =>
      have hlen' : ws.length = zs'.length := by simpa using hlen
      have hmem' : ∀ w ∈ ws, w ∈ T := fun w hw => hmem w (by simp [hw])
      have ha : a ∈ T := hmem a (by simp)
      have hc : ∀ w ∈ T,
          ((((a :: ws).zip (b :: zs')).count (w, j) : Nat) : Int)
            = (((ws.zip zs').count (w, j) : Nat) : Int) + if w = a ∧ j = b then 1 else 0 := by
        intro w _
        by_cases hw : w = a ∧ j = b
        · obtain ⟨h1, h2⟩ := hw
          subst h1
          subst h2
          rw [List.zip_cons_cons, List.count_cons]
          push_cast
          simp
        · have hne : (a, b) ≠ (w, j) := by
            intro he
            rw [Prod.mk.injEq] at he
            exact hw ⟨he.1.symm, he.2.symm⟩
          rw [List.zip_cons_cons, List.count_cons]
          simp [hne, hw]
      have hsum : (∑ w ∈ T, (if w = a ∧ j = b then (1 : Int) else 0)) = if j = b then 1 else 0 := by
        by_cases hj : j = b
        · have he : ∀ w ∈ T, (if w = a ∧ j = b then (1 : Int) else 0) = if w = a then 1 else 0 := by
            intro w _
            simp [hj]
          rw [Finset.sum_congr rfl he, Finset.sum_ite_eq' T a fun _ => (1 : Int),
            if_pos ha, if_pos hj]
        · have he : ∀ w ∈ T, (if w = a ∧ j = b then (1 : Int) else 0) = 0 := by
            intro w _
            simp [hj]
          rw [Finset.sum_congr rfl he, if_neg hj]
          simp
      rw [Finset.sum_congr rfl hc, Finset.sum_add_distrib, ih zs' hlen' hmem', hsum,
        List.count_cons]
      by_cases hj : j = b
      · subst hj
        push_cast
        simp
      · have hne : b ≠ j := fun he => hj he.symm
        simp [hne, hj]

/-! ### Facts about the random initialization -/

theorem initZAux_fst_length (g : Nat → Nat) (K : Nat) :
    ∀ (t : List (List Nat)) (c : Nat), (initZAux g K t c).1.length = t.length := by
  intro t
  induction t with
  | nil => intro c; rfl
  | cons doc rest ih =>
    intro c
    simp [initZAux, ih]

theorem initZAux_row_length (g : Nat → Nat) (K : Nat) :
    ∀ (t : List (List Nat)) (c d : Nat),
      ((initZAux g K t c).1.getD d []).length = (t.getD d []).length := by
  intro t
  induction t with
  | nil => intro c d; rfl
  | cons doc rest ih =>
    intro c d
    cases d with
    | zero => simp [initZAux]
    | succ d' => simpa [initZAux] using ih (c + doc.length) d'

theorem initZAux_topic_lt (g : Nat → Nat) (K : Nat) (hK : 0 < K) :
    ∀ (t : List (List Nat)) (c d x : Nat),
      x ∈ (initZAux g K t c).1.getD d [] → x < K := by
  intro t
  induction t with
  | nil =>
    intro c d x hx
    simp [initZAux] at hx
  | cons doc rest ih =>
    intro c d x hx
    cases d with
    | zero =>
      simp only [initZAux, List.getD_cons_zero, List.mem_map, List.mem_range] at hx
      obtain ⟨i, _, hi⟩ := hx
      rw [← hi]
      exact Nat.mod_lt _ hK
    | succ d' =>
      exact ih (c + doc.length) d' x (by simpa [initZAux] using hx)

theorem sum_len_range (t : List (List Nat)) :
    (∑ d ∈ Finset.range t.length, (((t.getD d []).length : Nat) : Int)) = (totalOcc t : Int) := by
  induction t with
  | nil => simp [totalOcc]
  | cons doc rest ih =>
    rw [List.length_cons, Finset.sum_range_succ']
    simp only [List.getD_cons_succ, List.getD_cons_zero]
    rw [ih]
    unfold totalOcc
    rw [List.map_cons, List.sum_cons]
    push_cast
    ring

/-! ### Effect of the remove / add-back halves on the tracked sums -/

@[simp] theorem koldAt_removeOcc (s : Gibbs) (d i d' i' : Nat) :
    koldAt (removeOcc s d i) d' i' = koldAt s d' i' := rfl

@[simp] theorem wordAt_removeOcc (s : Gibbs) (d i d' i' : Nat) :
    wordAt (removeOcc s d i) d' i' = wordAt s d' i' := rfl

theorem rowSumDTC_removeOcc (s : Gibbs) (d i d' : Nat) :
    rowSumDTC (removeOcc s d i) d'
      = rowSumDTC s d' + if d' = d ∧ koldAt s d i < s.K then (-1 : Int) else 0 := by
  show (∑ j ∈ Finset.range s.K, bump s.doc_topic_counts d (koldAt s d i) (-1) d' j) = _
  rw [sum_bump_snd]
  simp [rowSumDTC, Finset.mem_range]

theorem rowSumDTC_addBack (s : Gibbs) (d i k d' : Nat) :
    rowSumDTC (addBack s d i k) d'
      = rowSumDTC s d' + if d' = d ∧ k < s.K then (1 : Int) else 0 := by
  show (∑ j ∈ Finset.range s.K, bump s.doc_topic_counts d k 1 d' j) = _
  rw [sum_bump_snd]
  simp [rowSumDTC, Finset.mem_range]

theorem colSumDTC_removeOcc (s : Gibbs) (d i j : Nat) :
    colSumDTC (removeOcc s d i) j
      = colSumDTC s j + if j = koldAt s d i ∧ d < s.text.length then (-1 : Int) else 0 := by
  show (∑ x ∈ Finset.range s.text.length, bump s.doc_topic_counts d (koldAt s d i) (-1) x j) = _
  rw [sum_bump_fst]
  simp [colSumDTC, Finset.mem_range]

theorem colSumDTC_addBack (s : Gibbs) (d i k j : Nat) :
    colSumDTC (addBack s d i k) j
      = colSumDTC s j + if j = k ∧ d < s.text.length then (1 : Int) else 0 := by
  show (∑ x ∈ Finset.range s.text.length, bump s.doc_topic_counts d k 1 x j) = _
  rw [sum_bump_fst]
  simp [colSumDTC, Finset.mem_range]

theorem colSumTTC_removeOcc (s : Gibbs) (d i j : Nat) :
    colSumTTC (removeOcc s d i) j
      = colSumTTC s j
          + if j = koldAt s d i ∧ wordAt s d i ∈ s.tokens.toFinset then (-1 : Int) else 0 := by
  show (∑ x ∈ s.tokens.toFinset, bump s.term_topic_count (wordAt s d i) (koldAt s d i) (-1) x j)
      = _
  rw [sum_bump_fst]
  rfl

theorem colSumTTC_addBack (s : Gibbs) (d i k j : Nat) :
    colSumTTC (addBack s d i k) j
      = colSumTTC s j + if j = k ∧ wordAt s d i ∈ s.tokens.toFinset then (1 : Int) else 0 := by
  show (∑ x ∈ s.tokens.toFinset, bump s.term_topic_count (wordAt s d i) k 1 x j) = _
  rw [sum_bump_fst]
  rfl

/-! ### `__init__` establishes the invariant -/

theorem init_inv (text : List (List Nat)) (K : Int) (g : Nat → Nat) (c c' : Nat) (s : Gibbs)
    (h : Gibbs.init text K g c = .ok (s, c')) : SamplerInv s := by
  unfold Gibbs.init at h
  by_cases h1 : K ≤ 0 ∧ text ≠ []
  · rw [if_pos h1] at h
    exact absurd h (by simp)
  · rw [if_neg h1] at h
    by_cases h2 : (vocabOf text).length = 0
    · rw [if_pos h2] at h
      exact absurd h (by simp)
    · rw [if_neg h2] at h
      have hV : 0 < (vocabOf text).length := Nat.pos_of_ne_zero h2
      have htext : text ≠ [] := by
        intro he
        subst he
        simp [vocabOf] at h2
      have hKpos : 0 < K := by
        by_contra hK
        exact h1 ⟨by omega, htext⟩
      have hKn : 0 < K.toNat := by omega
      rw [Except.ok.injEq, Prod.mk.injEq] at h
      obtain ⟨hs, _⟩ := h
      subst hs
      refine ⟨⟨rfl, rfl, hKn, hV, rfl, rfl⟩, ⟨?_, ?_, ?_⟩, ⟨?_, ?_⟩⟩
      · exact initZAux_fst_length g K.toNat text c
      · intro d
        exact initZAux_row_length g K.toNat text c d
      · intro d i hlt
        exact initZAux_topic_lt g K.toNat hKn text c d _
          (getD_mem_of_lt _ _ _ hlt)
      · intro d hd
        show (∑ j ∈ Finset.range K.toNat,
            (((initZAux g K.toNat text c).1.getD d []).count j : Int))
          = ((text.getD d []).length : Int)
        rw [sum_count_range K.toNat _
          (fun x hx => initZAux_topic_lt g K.toNat hKn text c d x hx),
          initZAux_row_length]
      · intro j
        show (∑ d ∈ Finset.range text.length,
            (((initZAux g K.toNat text c).1.getD d []).count j : Int))
          = ∑ w ∈ (vocabOf text).toFinset, tallyTT text (initZAux g K.toNat text c).1 w j
        unfold tallyTT
        rw [Finset.sum_comm]
        refine Finset.sum_congr rfl ?_
        intro d hd
        rw [sum_count_zip ((vocabOf text).toFinset) j (text.getD d [])
          ((initZAux g K.toNat text c).1.getD d [])
          (initZAux_row_length g K.toNat text c d).symm
          (fun w hw => List.mem_toFinset.2
            (mem_vocabOf (getD_mem_of_lt _ _ _ (Finset.mem_range.1 hd)) hw))]

/-! ### `resample_one` preserves the invariant -/

theorem resample_inv (s : Gibbs) (g : Nat → Nat) (c d i : Nat)
    (h : SamplerInv s) (hd : d < s.text.length) (hi : i < (s.text.getD d []).length) :
    SamplerInv (resample_one s g c d i).1 := by
  obtain ⟨⟨htok, hV, hK, hV0, ha, hb⟩, ⟨hzlen, hzrow, hztop⟩, hrow, hcol⟩ := h
  have hi' : i < (s.doc_topic.getD d []).length := by
    rw [hzrow d]
    exact hi
  have hkoldK : koldAt s d i < s.K := hztop d i hi'
  have hknewK : g c % s.K < s.K := Nat.mod_lt _ hK
  have hwT : wordAt s d i ∈ s.tokens.toFinset := by
    rw [htok]
    exact List.mem_toFinset.2
      (mem_vocabOf (getD_mem_of_lt _ _ _ hd) (getD_mem_of_lt _ _ _ hi))
  have hdlt : d < s.doc_topic.length := by
    rw [hzlen]
    exact hd
  rw [resample_one_fst]
  refine ⟨⟨htok, hV, hK, hV0, ha, hb⟩, ⟨?_, ?_, ?_⟩, ?_, ?_⟩
  · show (s.doc_topic.set d ((s.doc_topic.getD d []).set i (g c % s.K))).length = s.text.length
    rw [List.length_set, hzlen]
  · intro d'
    show ((s.doc_topic.set d ((s.doc_topic.getD d []).set i (g c % s.K))).getD d' []).length
        = (s.text.getD d' []).length
    by_cases hdd : d' = d
    · subst hdd
      rw [getD_set_self _ _ _ _ hdlt, List.length_set, hzrow]
    · rw [getD_set_ne _ _ _ _ _ hdd, hzrow]
  · intro d' i' hlt
    have hlt' :
        i' < ((s.doc_topic.set d ((s.doc_topic.getD d []).set i (g c % s.K))).getD d' []).length :=
      hlt
    show ((s.doc_topic.set d ((s.doc_topic.getD d []).set i (g c % s.K))).getD d' []).getD i' 0
        < s.K
    by_cases hdd : d' = d
    · subst hdd
      rw [getD_set_self _ _ _ _ hdlt] at hlt' ⊢
      rw [List.length_set] at hlt'
      by_cases hii : i' = i
      · subst hii
        rw [getD_set_self _ _ _ _ hlt']
        exact hknewK
      · rw [getD_set_ne _ _ _ _ _ hii]
        exact hztop d' i' hlt'
    · rw [getD_set_ne _ _ _ _ _ hdd] at hlt' ⊢
      exact hztop d' i' hlt'
  · intro d' hd'
    show rowSumDTC (addBack (removeOcc s d i) d i (g c % s.K)) d'
        = ((s.text.getD d' []).length : Int)
    rw [rowSumDTC_addBack, rowSumDTC_removeOcc]
    simp only [removeOcc_K]
    by_cases hdd : d' = d
    · subst hdd
      rw [if_pos ⟨rfl, hkoldK⟩, if_pos ⟨rfl, hknewK⟩, hrow d' hd']
      ring
    · rw [if_neg (fun hh => hdd hh.1), if_neg (fun hh => hdd hh.1), hrow d' hd']
      ring
  · intro j
    show colSumDTC (addBack (removeOcc s d i) d i (g c % s.K)) j
        = colSumTTC (addBack (removeOcc s d i) d i (g c % s.K)) j
    rw [colSumDTC_addBack, colSumDTC_removeOcc, colSumTTC_addBack, colSumTTC_removeOcc]
    simp only [removeOcc_text, removeOcc_tokens, koldAt_removeOcc, wordAt_removeOcc]
    have e1 : (if j = koldAt s d i ∧ d < s.text.length then (-1 : Int) else 0)
        = if j = koldAt s d i then (-1 : Int) else 0 := by
      by_cases hj : j = koldAt s d i
      · rw [if_pos ⟨hj, hd⟩, if_pos hj]
      · rw [if_neg (fun hh => hj hh.1), if_neg hj]
    have e2 : (if j = g c % s.K ∧ d < s.text.length then (1 : Int) else 0)
        = if j = g c % s.K then (1 : Int) else 0 := by
      by_cases hj : j = g c % s.K
      · rw [if_pos ⟨hj, hd⟩, if_pos hj]
      · rw [if_neg (fun hh => hj hh.1), if_neg hj]
    have e3 : (if j = koldAt s d i ∧ wordAt s d i ∈ s.tokens.toFinset then (-1 : Int) else 0)
        = if j = koldAt s d i then (-1 : Int) else 0 := by
      by_cases hj : j = koldAt s d i
      · rw [if_pos ⟨hj, hwT⟩, if_pos hj]
      · rw [if_neg (fun hh => hj hh.1), if_neg hj]
    have e4 : (if j = g c % s.K ∧ wordAt s d i ∈ s.tokens.toFinset then (1 : Int) else 0)
        = if j = g c % s.K then (1 : Int) else 0 := by
      by_cases hj : j = g c % s.K
      · rw [if_pos ⟨hj, hwT⟩, if_pos hj]
      · rw [if_neg (fun hh => hj hh.1), if_neg hj]
    rw [e1, e2, e3, e4, hcol j]

/-! ### Every reachable state satisfies the invariant -/

theorem reachable_inv {s : Gibbs} (h : Reachable s) : SamplerInv s := by
  induction h with
  | init text K g c c' s h => exact init_inv text K g c c' s h
  | step s g c d i hs hd hi ih => exact resample_inv s g c d i ih hd hi
  | perp s hs ih => exact ih

/-! ### The sweep driver visits occurrences in the canonical order -/

@[simp] theorem resample_one_visit_d (s : Gibbs) (g : Nat → Nat) (c d i : Nat) :
    (resample_one s g c d i).2.2.d = d := rfl

@[simp] theorem resample_one_visit_i (s : Gibbs) (g : Nat → Nat) (c d i : Nat) :
    (resample_one s g c d i).2.2.i = i := rfl

theorem resampleList_text (g : Nat → Nat) (d : Nat) :
    ∀ (ps : List Nat) (s : Gibbs) (c : Nat), (resampleList g d ps s c).1.text = s.text := by
  intro ps
  induction ps with
  | nil => intro s c; rfl
  | cons i rest ih =>
    intro s c
    show (resampleList g d rest (resample_one s g c d i).1 (resample_one s g c d i).2.1).1.text
        = s.text
    rw [ih, resample_one_text]

theorem sweepFrom_text (g : Nat → Nat) :
    ∀ (docs : List (List Nat)) (d : Nat) (s : Gibbs) (c : Nat),
      (sweepFrom g docs d s c).1.text = s.text := by
  intro docs
  induction docs with
  | nil => intro d s c; rfl
  | cons doc rest ih =>
    intro d s c
    show (sweepFrom g rest (d + 1) (resampleList g d (List.range doc.length) s c).1
          (resampleList g d (List.range doc.length) s c).2.1).1.text = s.text
    rw [ih, resampleList_text]

theorem iterateAux_text (g : Nat → Nat) :
    ∀ (steps : List Nat) (s : Gibbs) (c : Nat), (iterateAux g steps s c).1.text = s.text := by
  intro steps
  induction steps with
  | nil => intro s c; rfl
  | cons st rest ih =>
    intro s c
    have hs0 : (if st % 25 = 0 then s.perplexity else s).text = s.text := by
      split <;> rfl
    show (iterateAux g rest
          (sweepFrom g (if st % 25 = 0 then s.perplexity else s).text 0
            (if st % 25 = 0 then s.perplexity else s) c).1
          (sweepFrom g (if st % 25 = 0 then s.perplexity else s).text 0
            (if st % 25 = 0 then s.perplexity else s) c).2.1).1.text = s.text
    rw [ih, sweepFrom_text, hs0]

theorem resampleList_visits (g : Nat → Nat) (d : Nat) :
    ∀ (ps : List Nat) (s : Gibbs) (c : Nat),
      ((resampleList g d ps s c).2.2).map (fun v => (v.d, v.i)) = ps.map fun i => (d, i) := by
  intro ps
  induction ps with
  | nil => intro s c; rfl
  | cons i rest ih =>
    intro s c
    show ((resample_one s g c d i).2.2
          :: (resampleList g d rest (resample_one s g c d i).1
              (resample_one s g c d i).2.1).2.2).map (fun v => (v.d, v.i))
        = (i :: rest).map fun i => (d, i)
    rw [List.map_cons, List.map_cons, ih]
    rfl

theorem sweepFrom_visits (g : Nat → Nat) :
    ∀ (docs : List (List Nat)) (d : Nat) (s : Gibbs) (c : Nat),
      ((sweepFrom g docs d s c).2.2).map (fun v => (v.d, v.i)) = visitOrder docs d := by
  intro docs
  induction docs with
  | nil => intro d s c; rfl
  | cons doc rest ih =>
    intro d s c
    show (((resampleList g d (List.range doc.length) s c).2.2
          ++ (sweepFrom g rest (d + 1) (resampleList g d (List.range doc.length) s c).1
              (resampleList g d (List.range doc.length) s c).2.1).2.2).map fun v => (v.d, v.i))
        = visitOrder (doc :: rest) d
    rw [List.map_append, resampleList_visits, ih]
    rfl

theorem iterateAux_visits (g : Nat → Nat) :
    ∀ (steps : List Nat) (s : Gibbs) (c : Nat),
      ((iterateAux g steps s c).2.2).map (fun v => (v.d, v.i))
        = (steps.map fun _ => visitOrder s.text 0).flatten := by
  intro steps
  induction steps with
  | nil => intro s c; rfl
  | cons st rest ih =>
    intro s c
    have hs0 : (if st % 25 = 0 then s.perplexity else s).text = s.text := by
      split <;> rfl
    show (((sweepFrom g (if st % 25 = 0 then s.perplexity else s).text 0
            (if st % 25 = 0 then s.perplexity else s) c).2.2
          ++ (iterateAux g rest
              (sweepFrom g (if st % 25 = 0 then s.perplexity else s).text 0
                (if st % 25 = 0 then s.perplexity else s) c).1
              (sweepFrom g (if st % 25 = 0 then s.perplexity else s).text 0
                (if st % 25 = 0 then s.perplexity else s) c).2.1).2.2).map fun v => (v.d, v.i))
        = ((st :: rest).map fun _ => visitOrder s.text 0).flatten
    rw [List.map_append, sweepFrom_visits, ih, sweepFrom_text, hs0, List.map_cons,
      List.flatten_cons]

theorem visitOrder_fst_ge :
    ∀ (docs : List (List Nat)) (d : Nat) (p : Nat × Nat), p ∈ visitOrder docs d → d ≤ p.1 := by
  intro docs
  induction docs with
  | nil =>
    intro d p hp
    simp [visitOrder] at hp
  | cons doc rest ih =>
    intro d p hp
    rcases List.mem_append.1 hp with hp | hp
    · obtain ⟨i, _, hi⟩ := List.mem_map.1 hp
      rw [← hi]
    · exact Nat.le_of_succ_le (ih (d + 1) p hp)

theorem visitOrder_nodup : ∀ (docs : List (List Nat)) (d : Nat), (visitOrder docs d).Nodup := by
  intro docs
  induction docs with
  | nil => intro d; simp [visitOrder]
  | cons doc rest ih =>
    intro d
    rw [visitOrder, List.nodup_append]
    refine ⟨List.Nodup.map ?_ (List.nodup_range doc.length), ih (d + 1), ?_⟩
    · intro a b h
      simpa using h
    · intro p hp hp'
      obtain ⟨i, _, hi⟩ := List.mem_map.1 hp
      have h1 : d + 1 ≤ p.1 := visitOrder_fst_ge rest (d + 1) p hp'
      rw [← hi] at h1
      omega

/-! ### Shared helpers for the claim theorems -/

theorem if_and_true {p q : Prop} [Decidable p] [Decidable q] (hq : q) (c : Int) :
    (if p ∧ q then c else 0) = if p then c else 0 := by
  by_cases hp : p
  · rw [if_pos ⟨hp, hq⟩, if_pos hp]
  · rw [if_neg (fun hh => hp hh.1), if_neg hp]

theorem initEx_eq : Gibbs.init tEx 2 gEx 0 = .ok (sEx, cEx) := rfl

theorem reachEx : Reachable sEx := Reachable.init tEx 2 gEx 0 cEx sEx initEx_eq

/-! ### The claims -/

/-- C10: calling `iterate` with `n = 0` performs no resampling and no
perplexity evaluation: the `range(0)` loop body never runs, so the state
(`doc_topic`, both count matrices, `alpha`, `beta`, the perplexity trace)
and the rng cursor are returned exactly unchanged and no visit occurs. -/
theorem gibbs_C10 (s : Gibbs) (g : Nat → Nat) (c : Nat) :
    s.iterate g c 0 = (s, c, []) ∧
    (s.iterate g c 0).1.doc_topic = s.doc_topic ∧
    (s.iterate g c 0).1.doc_topic_counts = s.doc_topic_counts ∧
    (s.iterate g c 0).1.term_topic_count = s.term_topic_count ∧
    (s.iterate g c 0).1.alpha = s.alpha ∧
    (s.iterate g c 0).1.beta = s.beta ∧
    (s.iterate g c 0).1.perplexity_scores = s.perplexity_scores :=
  ⟨rfl, rfl, rfl, rfl, rfl, rfl, rfl⟩

/-- C5: one call to `iterate(n)` performs exactly `n` full passes; the
chronological sequence of `(document, position)` pairs visited — one
`resample_one` invocation per recorded visit — is `n` copies of the
canonical order (documents in order, positions in order within each
document), and within one pass every pair occurs exactly once (the
canonical order has no duplicates). -/
theorem gibbs_C5 (s : Gibbs) (g : Nat → Nat) (c n : Nat) :
    ((s.iterate g c n).2.2).map (fun v => (v.d, v.i))
        = ((List.range n).map fun _ => visitOrder s.text 0).flatten ∧
    (visitOrder s.text 0).Nodup :=
  ⟨iterateAux_visits g (List.range n) s c, visitOrder_nodup s.text 0⟩

/-- C6: each invocation of the perplexity evaluator appends exactly one
entry to the trace and never rewrites existing entries (the new trace is
the old trace with one snapshot appended), and the scalar recorded for
the new entry equals `exp(-L/N)` with `L` the corpus log-likelihood
under the smoothed distributions `dt` and `tt` of the claim and `N` the
total word-occurrence count (`specPerpValue`). -/
theorem gibbs_C6 (s : Gibbs) :
    (Gibbs.perplexity s).perplexity_scores
        = s.perplexity_scores ++ [(s.doc_topic_counts, s.term_topic_count)] ∧
    valueTrace (Gibbs.perplexity s)
        = valueTrace s ++ [specPerpValue s s.doc_topic_counts s.term_topic_count] := by
  refine ⟨rfl, ?_⟩
  show (s.perplexity_scores ++ [(s.doc_topic_counts, s.term_topic_count)]).map
      (pvalue (Gibbs.perplexity s)) = _
  rw [List.map_append]
  rfl

/-- C8: the whole pipeline (construction, every initialization draw,
every resample draw, the perplexity trace) is a function of the seed,
corpus, and configuration alone, so two independent runs with the same
seed and inputs produce identical draw sequences and identical
perplexity traces. -/
theorem gibbs_C8 (seed : Nat) (text : List (List Nat)) (K : Int) (n : Nat)
    (r1 r2 : Except String (List Nat × List ℝ))
    (h1 : r1 = runGibbs seed text K n) (h2 : r2 = runGibbs seed text K n) :
    r1 = r2 :=
  h1.trans h2.symm

/-- Witness for C8 at a concrete seed, corpus, and sweep count. -/
theorem gibbs_C8_witness :
    runGibbs 3 [[0, 1], [1, 2]] 2 1 = runGibbs 3 [[0, 1], [1, 2]] 2 1 :=
  gibbs_C8 3 [[0, 1], [1, 2]] 2 1 _ _ rfl rfl

/-- C1: for every occurrence `(d, i)` resampled from a reachable state,
the unnormalized conditional weight vector the code computes after the
remove step equals, topic by topic, the specification formula
`((ttc[w,j]+beta)/(sum_over_w' ttc[w',j]+V*beta)) *
 ((dtc[d,j]+alpha)/(sum_over_j' dtc[d,j']+K*alpha))` evaluated on the
counts that exclude the occurrence (the post-remove state): the code's
first denominator is a column sum of `doc_topic_counts`, which by the
per-topic column-sum equality coincides with the specified column sum of
`term_topic_count`. -/
theorem gibbs_C1 (s : Gibbs) (g : Nat → Nat) (c d i : Nat) (hs : Reachable s)
    (hd : d < s.text.length) (hi : i < (s.text.getD d []).length) :
    (resample_one s g c d i).2.2.weights
      = specWeightList (removeOcc s d i) d (wordAt s d i) := by
  obtain ⟨⟨htok, hV, hK, hV0, ha, hb⟩, ⟨hzlen, hzrow, hztop⟩, hrow, hcol⟩ := reachable_inv hs
  have hwT : wordAt s d i ∈ s.tokens.toFinset := by
    rw [htok]
    exact List.mem_toFinset.2
      (mem_vocabOf (getD_mem_of_lt _ _ _ hd) (getD_mem_of_lt _ _ _ hi))
  have hmid : ∀ j, colSumDTC (removeOcc s d i) j = colSumTTC (removeOcc s d i) j := by
    intro j
    rw [colSumDTC_removeOcc, colSumTTC_removeOcc, if_and_true hd, if_and_true hwT, hcol j]
  show weightsAt (removeOcc s d i) d (wordAt s d i)
      = specWeightList (removeOcc s d i) d (wordAt s d i)
  unfold weightsAt specWeightList
  refine List.map_congr_left ?_
  intro j _
  rw [hmid j]

/-- Witness for C1 at the concrete reachable state `sEx`, occurrence
`(0, 0)`. -/
theorem gibbs_C1_witness :
    (resample_one sEx gEx 0 0 0).2.2.weights
      = specWeightList (removeOcc sEx 0 0) 0 (wordAt sEx 0 0) :=
  gibbs_C1 sEx gEx 0 0 0 reachEx (by decide) (by decide)

/-- C2: in every reachable state each document row of `doc_topic_counts`
sums to the document's occurrence count; the remove half of a resample
of occurrence `(d, i)` lowers row `d`'s sum by exactly 1, and the
add-back half restores it (so the row-sum invariant again holds for
every document after the completed `resample_one`). -/
theorem gibbs_C2 (s : Gibbs) (g : Nat → Nat) (c d i : Nat) (hs : Reachable s)
    (hd : d < s.text.length) (hi : i < (s.text.getD d []).length) :
    (∀ d', d' < s.text.length → rowSumDTC s d' = ((s.text.getD d' []).length : Int)) ∧
    rowSumDTC (removeOcc s d i) d = rowSumDTC s d - 1 ∧
    rowSumDTC (resample_one s g c d i).1 d = rowSumDTC s d ∧
    (∀ d', d' < s.text.length →
      rowSumDTC (resample_one s g c d i).1 d' = ((s.text.getD d' []).length : Int)) := by
  have hinv := reachable_inv hs
  obtain ⟨⟨htok, hV, hK, hV0, ha, hb⟩, ⟨hzlen, hzrow, hztop⟩, hrow, hcol⟩ := hinv
  have hi' : i < (s.doc_topic.getD d []).length := by
    rw [hzrow d]
    exact hi
  have hkoldK : koldAt s d i < s.K := hztop d i hi'
  have hknewK : g c % s.K < s.K := Nat.mod_lt _ hK
  refine ⟨hrow, ?_, ?_, ?_⟩
  · rw [rowSumDTC_removeOcc, if_pos ⟨rfl, hkoldK⟩]
    ring
  · rw [resample_one_fst, rowSumDTC_addBack, rowSumDTC_removeOcc]
    simp only [removeOcc_K, eq_self_iff_true, true_and]
    rw [if_pos hkoldK, if_pos hknewK]
    ring
  · intro d' hd'
    have hinv2 := resample_inv s g c d i
      ⟨⟨htok, hV, hK, hV0, ha, hb⟩, ⟨hzlen, hzrow, hztop⟩, hrow, hcol⟩ hd hi
    obtain ⟨_, _, hrow2, _⟩ := hinv2
    exact hrow2 d' hd'

/-- Witness for C2 at the concrete reachable state `sEx`, occurrence
`(0, 0)`, checking the row-sum facts for both documents. -/
theorem gibbs_C2_witness :
    rowSumDTC sEx 0 = ((sEx.text.getD 0 []).length : Int) ∧
    rowSumDTC (removeOcc sEx 0 0) 0 = rowSumDTC sEx 0 - 1 ∧
    rowSumDTC (resample_one sEx gEx 0 0 0).1 0 = rowSumDTC sEx 0 ∧
    rowSumDTC (resample_one sEx gEx 0 0 0).1 1 = ((sEx.text.getD 1 []).length : Int) :=
  ⟨(gibbs_C2 sEx gEx 0 0 0 reachEx (by decide) (by decide)).1 0 (by decide),
   (gibbs_C2 sEx gEx 0 0 0 reachEx (by decide) (by decide)).2.1,
   (gibbs_C2 sEx gEx 0 0 0 reachEx (by decide) (by decide)).2.2.1,
   (gibbs_C2 sEx gEx 0 0 0 reachEx (by decide) (by decide)).2.2.2 1 (by decide)⟩

/-- C3: in every reachable state (immediately after initialization, and
preserved by every completed `resample_one`) the sum of all entries of
`doc_topic_counts` equals the sum of all entries of `term_topic_count`,
and both equal the total word-occurrence count of the corpus. -/
theorem gibbs_C3 (s : Gibbs) (hs : Reachable s) :
    totalDTC s = totalTTC s ∧ totalDTC s = (totalOcc s.text : Int) ∧
    totalTTC s = (totalOcc s.text : Int) := by
  obtain ⟨_, _, hrow, hcol⟩ := reachable_inv hs
  have h2 : totalDTC s = (totalOcc s.text : Int) := by
    unfold totalDTC
    rw [← sum_len_range s.text]
    refine Finset.sum_congr rfl ?_
    intro d hd
    exact hrow d (Finset.mem_range.1 hd)
  have h1 : totalDTC s = totalTTC s := by
    unfold totalDTC totalTTC
    rw [Finset.sum_comm]
    have hc : ∀ j ∈ Finset.range s.K,
        (∑ d ∈ Finset.range s.text.length, s.doc_topic_counts d j)
          = ∑ w ∈ s.tokens.toFinset, s.term_topic_count w j := by
      intro j _
      exact hcol j
    rw [Finset.sum_congr rfl hc, Finset.sum_comm]
  exact ⟨h1, h2, h1.symm.trans h2⟩

/-- Witness for C3 at the concrete reachable state `sEx`. -/
theorem gibbs_C3_witness :
    totalDTC sEx = totalTTC sEx ∧ totalDTC sEx = (totalOcc sEx.text : Int) ∧
    totalTTC sEx = (totalOcc sEx.text : Int) :=
  gibbs_C3 sEx reachEx

/-- C4: in every reachable state, for every topic `j` in `[0, K)` the
column sum over documents of `doc_topic_counts[·, j]` equals the column
sum over vocabulary terms of `term_topic_count[·, j]`; the equality also
holds immediately after the remove half of a resample (both matrices are
decremented in the same topic column) and again after the add-back half.
This equality is what makes the implementation's weight denominator (a
column sum of `doc_topic_counts`) coincide with the specified column sum
of `term_topic_count` (see C1). -/
theorem gibbs_C4 (s : Gibbs) (g : Nat → Nat) (c d i : Nat) (hs : Reachable s)
    (hd : d < s.text.length) (hi : i < (s.text.getD d []).length) :
    (∀ j, j < s.K → colSumDTC s j = colSumTTC s j) ∧
    (∀ j, j < s.K → colSumDTC (removeOcc s d i) j = colSumTTC (removeOcc s d i) j) ∧
    (∀ j, j < s.K →
      colSumDTC (resample_one s g c d i).1 j = colSumTTC (resample_one s g c d i).1 j) := by
  have hinv := reachable_inv hs
  obtain ⟨⟨htok, hV, hK, hV0, ha, hb⟩, ⟨hzlen, hzrow, hztop⟩, hrow, hcol⟩ := hinv
  have hwT : wordAt s d i ∈ s.tokens.toFinset := by
    rw [htok]
    exact List.mem_toFinset.2
      (mem_vocabOf (getD_mem_of_lt _ _ _ hd) (getD_mem_of_lt _ _ _ hi))
  refine ⟨fun j _ => hcol j, ?_, ?_⟩
  · intro j _
    rw [colSumDTC_removeOcc, colSumTTC_removeOcc, if_and_true hd, if_and_true hwT, hcol j]
  · intro j _
    have hinv2 := resample_inv s g c d i
      ⟨⟨htok, hV, hK, hV0, ha, hb⟩, ⟨hzlen, hzrow, hztop⟩, hrow, hcol⟩ hd hi
    obtain ⟨_, _, _, hcol2⟩ := hinv2
    exact hcol2 j

/-- Witness for C4 at the concrete reachable state `sEx`, occurrence
`(0, 0)`, topic column `0`. -/
theorem gibbs_C4_witness :
    colSumDTC sEx 0 = colSumTTC sEx 0 ∧
    colSumDTC (removeOcc sEx 0 0) 0 = colSumTTC (removeOcc sEx 0 0) 0 ∧
    colSumDTC (resample_one sEx gEx 0 0 0).1 0 = colSumTTC (resample_one sEx gEx 0 0 0).1 0 :=
  ⟨(gibbs_C4 sEx gEx 0 0 0 reachEx (by decide) (by decide)).1 0 (by decide),
   (gibbs_C4 sEx gEx 0 0 0 reachEx (by decide) (by decide)).2.1 0 (by decide),
   (gibbs_C4 sEx gEx 0 0 0 reachEx (by decide) (by decide)).2.2 0 (by decide)⟩

/-- C7: sampler construction fails with a fatal error whenever `K <= 0`
or the vocabulary is empty (`V == 0`); when `K >= 1` and `V >= 1` it
succeeds and fully populates the per-occurrence assignment store (one
row per document, one entry per occurrence) and both count matrices
(each entry the tally of the initial draws). -/
theorem gibbs_C7 (text : List (List Nat)) (K : Int) (g : Nat → Nat) (c : Nat) :
    ((K ≤ 0 ∨ (vocabOf text).length = 0) → ∃ e, Gibbs.init text K g c = .error e) ∧
    (1 ≤ K → 1 ≤ (vocabOf text).length →
      ∃ s c', Gibbs.init text K g c = .ok (s, c') ∧
        s.doc_topic.length = text.length ∧
        (∀ d, (s.doc_topic.getD d []).length = (text.getD d []).length) ∧
        (∀ d j, s.doc_topic_counts d j = ((s.doc_topic.getD d []).count j : Int)) ∧
        (∀ w j, s.term_topic_count w j = tallyTT text s.doc_topic w j)) := by
  constructor
  · intro hbad
    unfold Gibbs.init
    by_cases h1 : K ≤ 0 ∧ text ≠ []
    · rw [if_pos h1]
      exact ⟨_, rfl⟩
    · rw [if_neg h1]
      have h2 : (vocabOf text).length = 0 := by
        rcases hbad with hK | hV
        · have hte : text = [] := by
            by_contra hne
            exact h1 ⟨hK, hne⟩
          subst hte
          rfl
        · exact hV
      rw [if_pos h2]
      exact ⟨_, rfl⟩
  · intro hK hV
    unfold Gibbs.init
    have h1 : ¬(K ≤ 0 ∧ text ≠ []) := fun hh => absurd hh.1 (by omega)
    have h2 : ¬(vocabOf text).length = 0 := by omega
    rw [if_neg h1, if_neg h2]
    refine ⟨_, _, rfl, ?_, ?_, ?_, ?_⟩
    · exact initZAux_fst_length g K.toNat text c
    · intro d
      exact initZAux_row_length g K.toNat text c d
    · intro d j
      rfl
    · intro w j
      rfl

/-- Witness for C7: a failing construction with `K = -3` and a
successful construction on `tEx` with `K = 2`. -/
theorem gibbs_C7_witness :
    (∃ e, Gibbs.init [[0, 1], [2]] (-3) gEx 0 = .error e) ∧
    (∃ s c', Gibbs.init tEx 2 gEx 0 = .ok (s, c') ∧
      s.doc_topic.length = tEx.length ∧
      (∀ d, (s.doc_topic.getD d []).length = (tEx.getD d []).length) ∧
      (∀ d j, s.doc_topic_counts d j = ((s.doc_topic.getD d []).count j : Int)) ∧
      (∀ w j, s.term_topic_count w j = tallyTT tEx s.doc_topic w j)) :=
  ⟨(gibbs_C7 [[0, 1], [2]] (-3) gEx 0).1 (Or.inl (by decide)),
   (gibbs_C7 tEx 2 gEx 0).2 (by decide) (by decide)⟩

/-- C9: for every topic in `[0, K)` and every `n >= 1`, the per-topic
output of `top_n_words` is the `n` vocabulary terms with the highest
`term_topic_count[*, topic]`: it has `min n V` entries (so at most `V`
when `n` exceeds `V` — truncation, not an error), its entries are
distinct tokens, and every returned term's count is at least every
non-returned term's count; the call mutates no sampler state, and the
method's output pairs each topic of `range(K)` with exactly this
list. -/
theorem gibbs_C9 (s : Gibbs) (topic n : Nat) (ht : topic < s.K) (hn : 1 ≤ n)
    (hV : s.V = s.tokens.length) (hnd : s.tokens.Nodup) :
    (topWords s topic n).length = min n s.V ∧
    (topWords s topic n).length ≤ s.V ∧
    (topWords s topic n).Nodup ∧
    (∀ w ∈ topWords s topic n, ∀ w' ∈ s.tokens, w' ∉ topWords s topic n →
      s.term_topic_count w' topic ≤ s.term_topic_count w topic) ∧
    (s.top_n_words n).2 = s ∧
    (topic, topWords s topic n) ∈ (s.top_n_words n).1 := by
  have hperm : (List.insertionSort (countGE s topic) s.tokens).Perm s.tokens :=
    List.perm_insertionSort (countGE s topic) s.tokens
  have hlen1 : (topWords s topic n).length = min n s.V := by
    show ((List.insertionSort (countGE s topic) s.tokens).take n).length = min n s.V
    rw [List.length_take, hperm.length_eq, ← hV]
  refine ⟨hlen1, ?_, ?_, ?_, rfl, ?_⟩
  · rw [hlen1]
    exact Nat.min_le_right n s.V
  · exact (List.take_sublist n _).nodup (hperm.nodup_iff.2 hnd)
  · intro w hw w' hw' hnot
    have hsorted : List.Sorted (countGE s topic) (List.insertionSort (countGE s topic) s.tokens) :=
      List.sorted_insertionSort (countGE s topic) s.tokens
    have hsplit := List.take_append_drop n (List.insertionSort (countGE s topic) s.tokens)
    have hpw : List.Pairwise (countGE s topic)
        ((List.insertionSort (countGE s topic) s.tokens).take n
          ++ (List.insertionSort (countGE s topic) s.tokens).drop n) := by
      rw [hsplit]
      exact hsorted
    obtain ⟨-, -, hcross⟩ := List.pairwise_append.1 hpw
    have hw'sorted : w' ∈ List.insertionSort (countGE s topic) s.tokens :=
      hperm.mem_iff.2 hw'
    have hw'split : w' ∈ (List.insertionSort (countGE s topic) s.tokens).take n
        ++ (List.insertionSort (countGE s topic) s.tokens).drop n := by
      rw [hsplit]
      exact hw'sorted
    rcases List.mem_append.1 hw'split with hh | hh
    · exact absurd hh hnot
    · exact hcross w hw w' hh
  · show (topic, topWords s topic n) ∈ (List.range s.K).map fun t => (t, topWords s t n)
    exact List.mem_map.2 ⟨topic, List.mem_range.2 ht, rfl⟩

/-- Witness for C9 at the concrete state `sEx`, topic `0`, `n = 1`. -/
theorem gibbs_C9_witness :
    (topWords sEx 0 1).length = min 1 sEx.V ∧
    (topWords sEx 0 1).length ≤ sEx.V ∧
    (topWords sEx 0 1).Nodup ∧
    (∀ w ∈ topWords sEx 0 1, ∀ w' ∈ sEx.tokens, w' ∉ topWords sEx 0 1 →
      sEx.term_topic_count w' 0 ≤ sEx.term_topic_count w 0) ∧
    (sEx.top_n_words 1).2 = sEx ∧
    (0, topWords sEx 0 1) ∈ (sEx.top_n_words 1).1 :=
  gibbs_C9 sEx 0 1 (by decide) (by decide) (by decide) (by decide)
